import Mathlib

set_option maxRecDepth 10000

/-!
Verification of the domain-name engine of the `domain-core` repository,
specifically the `RelativeDname` type of
`src/domain-core/src/bits/name/relative.rs`.

Byte buffers are embedded as `List Nat` (each element a byte value).  A
`RelativeDname` is just its octet buffer, so names are `List Nat` as well and
a `Label` is its payload byte list (the wire form is the length byte followed
by the payload).  Fallible Rust code returns `Except`/`Option`; a panic is
modelled as `Option.none`, carrying no state — which matches the source's
check-before-mutate discipline (`check_index` runs before any assignment to
`self.octets`) where a panic leaves no partial mutation observable.

Recursions that the Rust side performs by shrinking a slice are embedded with
an explicit fuel argument so every definition is structural and computable by
kernel reduction; all top-level wrappers pass `slice.length` fuel, which each
lemma shows is sufficient.
-/

namespace DomainCore

/-- Error detail for a bad (undefined or extended) label type, as in
`label.rs`/`LabelTypeError`.  The split of the 64..=191 range into
`Extended` (64..=127) and `Undefined` (128..=191) is fixed by the tests in
`relative.rs` (`\x62` ↦ `Extended(0x62)`, `\xa2` ↦ `Undefined`). -/
inductive LabelTypeError where
  | Undefined : LabelTypeError
  | Extended : Nat → LabelTypeError
deriving DecidableEq, Repr

/-- Errors of `Label::split_from` (`label.rs`, see spec §4.1). -/
inductive SplitLabelError where
  | Pointer : SplitLabelError
  | BadType : LabelTypeError → SplitLabelError
  | ShortBuf : SplitLabelError
deriving DecidableEq, Repr

/-- `RelativeDnameError` from `relative.rs`. -/
inductive RelativeDnameError where
  | BadLabel : LabelTypeError → RelativeDnameError
  | CompressedName : RelativeDnameError
  | ShortData : RelativeDnameError
  | LongName : RelativeDnameError
  | AbsoluteName : RelativeDnameError
deriving DecidableEq, Repr

/-- `StripSuffixError` from `relative.rs`. -/
inductive StripSuffixError where
  | mk : StripSuffixError
deriving DecidableEq, Repr

/-- Modelled from the spec: `Label::split_from` of `label.rs`, which is not
under `src/`.  Spec §4.1: read one length byte; a value in 0..=63 denotes a
normal or root label whose payload is the next `len` bytes (failing
`ShortBuf` when fewer than `1+len` bytes remain, including the empty input);
64..=191 fails `BadType` (`Extended` below 128, `Undefined` above, per the
`relative.rs` tests); 192..=255 is a compression pointer and fails
`Pointer`.  Returns the label payload and the remaining tail. -/
def splitFrom : List Nat → Except SplitLabelError (List Nat × List Nat)
  | [] => Except.error SplitLabelError.ShortBuf
  | head :: tail =>
    if head ≤ 63 then
      if tail.length < head then Except.error SplitLabelError.ShortBuf
      else Except.ok (tail.take head, tail.drop head)
    else if head ≤ 127 then
      Except.error (SplitLabelError.BadType (LabelTypeError.Extended head))
    else if head ≤ 191 then
      Except.error (SplitLabelError.BadType LabelTypeError.Undefined)
    else Except.error SplitLabelError.Pointer

/-- `impl From<SplitLabelError> for RelativeDnameError` in `relative.rs`. -/
def relErrOfSplit : SplitLabelError → RelativeDnameError
  | SplitLabelError.Pointer => RelativeDnameError.CompressedName
  | SplitLabelError.BadType t => RelativeDnameError.BadLabel t
  | SplitLabelError.ShortBuf => RelativeDnameError.ShortData

/-- The label-scanning loop of `RelativeDname::from_octets`: while the buffer
is nonempty, split one label, rejecting a root label.  Fuel-structured; the
fuel-exhausted branch is unreachable when `fuel ≥ slice.length`. -/
def scanF : Nat → List Nat → Except RelativeDnameError Unit
  | _, [] => Except.ok ()
  | 0, _ :: _ => Except.ok ()
  | fuel+1, head :: tail =>
    match splitFrom (head :: tail) with
    | Except.error e => Except.error (relErrOfSplit e)
    | Except.ok (label, t) =>
      if label.isEmpty then Except.error RelativeDnameError.AbsoluteName
      else scanF fuel t

/-- `RelativeDname::from_octets`: length check up front, then label scan; on
success the name wraps the very same octets. -/
def fromOctets (octets : List Nat) : Except RelativeDnameError (List Nat) :=
  if 254 < octets.length then Except.error RelativeDnameError.LongName
  else
    match scanF octets.length octets with
    | Except.error e => Except.error e
    | Except.ok () => Except.ok octets

/-- The forward label iterator (`DnameIter::next` repeatedly): splitting
stops when `split_from` fails, which never happens on a valid name. -/
def labelsF : Nat → List Nat → List (List Nat)
  | 0, _ => []
  | fuel+1, slice =>
    match splitFrom slice with
    | Except.error _ => []
    | Except.ok (label, tail) => label :: labelsF fuel tail

/-- All labels of a name, front to back (`RelativeDname::iter`). -/
def labels (slice : List Nat) : List (List Nat) :=
  labelsF slice.length slice

/-- `RelativeDname::label_count`: the number of labels the iterator yields. -/
def labelCount (n : List Nat) : Nat :=
  (labels n).length

/-- `RelativeDname::ndots`: zero for the empty name, label count minus one
otherwise. -/
def ndots (n : List Nat) : Nat :=
  if n.isEmpty then 0 else labelCount n - 1

/-- The loop of `RelativeDname::is_label_start`: walk labels from the front,
returning true only on landing exactly at the end of a label's encoding.  The
source `unwrap`s `split_from`, which cannot fail on a valid name; the failure
branch is modelled as `false` and is unreachable in every theorem below. -/
def isLabelStartF : Nat → List Nat → Nat → Bool
  | _, [], _ => false
  | 0, _ :: _, _ => false
  | fuel+1, head :: tail, index =>
    match splitFrom (head :: tail) with
    | Except.error _ => false
    | Except.ok (label, t) =>
      if index < label.length + 1 then false
      else if index = label.length + 1 then true
      else isLabelStartF fuel t (index - (label.length + 1))

/-- `RelativeDname::is_label_start`. -/
def isLabelStart (n : List Nat) (index : Nat) : Bool :=
  if index = 0 then true else isLabelStartF n.length n index

/-- `RelativeDname::range`; `check_index` on both endpoints, a panic being
`none`.  `Octets::range` on the underlying buffer is take-then-drop. -/
def range (n : List Nat) (start stop : Nat) : Option (List Nat) :=
  if isLabelStart n start then
    if isLabelStart n stop then some ((n.take stop).drop start) else none
  else none

/-- `RelativeDname::range_from`. -/
def rangeFrom (n : List Nat) (start : Nat) : Option (List Nat) :=
  if isLabelStart n start then some (n.drop start) else none

/-- `RelativeDname::range_to`. -/
def rangeTo (n : List Nat) (stop : Nat) : Option (List Nat) :=
  if isLabelStart n stop then some (n.take stop) else none

/-- `RelativeDname::split_at`, returning (left, right). -/
def splitAt (n : List Nat) (mid : Nat) : Option (List Nat × List Nat) :=
  if isLabelStart n mid then some (n.take mid, n.drop mid) else none

/-- `RelativeDname::split_off`, returning (returned right part, new self). -/
def splitOff (n : List Nat) (mid : Nat) : Option (List Nat × List Nat) :=
  if isLabelStart n mid then some (n.drop mid, n.take mid) else none

/-- `RelativeDname::split_to`, returning (returned left part, new self). -/
def splitTo (n : List Nat) (mid : Nat) : Option (List Nat × List Nat) :=
  if isLabelStart n mid then some (n.take mid, n.drop mid) else none

/-- `RelativeDname::truncate`, returning the new self. -/
def truncate (n : List Nat) (len : Nat) : Option (List Nat) :=
  if isLabelStart n len then some (n.take len) else none

/-- `RelativeDname::split_first`: `some (returnedLabelOption, newSelf)`, with
outer `none` the (unreachable) panic inside `split_to`. -/
def splitFirst (n : List Nat) : Option (Option (List Nat) × List Nat) :=
  if n.isEmpty then some (none, n)
  else
    match splitFrom n with
    | Except.error _ => some (none, n)
    | Except.ok (label, _) =>
      match splitTo n (label.length + 1) with
      | none => none
      | some (left, newSelf) => some (some left, newSelf)

/-- `RelativeDname::parent`: `split_first().is_some()`, label discarded. -/
def parent (n : List Nat) : Option (Bool × List Nat) :=
  (splitFirst n).map (fun p => (p.1.isSome, p.2))

/-- The loop of `DnameIter::next_back`: walk to the final label, then shave
its encoding off the original slice.  The source `unwrap`s `split_from`;
that branch is `none` and unreachable on valid names. -/
def nbF : Nat → List Nat → List Nat → Option (List Nat × List Nat)
  | _, _, [] => none
  | 0, _, _ :: _ => none
  | fuel+1, orig, head :: tail =>
    match splitFrom (head :: tail) with
    | Except.error _ => none
    | Except.ok (label, t) =>
      if t.isEmpty then
        some (label, orig.take (orig.length - (label.length + 1)))
      else nbF fuel orig t

/-- `DnameIter::next_back`: the last label and the shortened slice. -/
def nextBack (slice : List Nat) : Option (List Nat × List Nat) :=
  if slice.isEmpty then none else nbF slice.length slice slice

/-- Labels of a name yielded back to front, by iterated `next_back`. -/
def lbF : Nat → List Nat → List (List Nat)
  | 0, _ => []
  | fuel+1, slice =>
    match nextBack slice with
    | none => []
    | some (label, rest) => label :: lbF fuel rest

/-- All labels a backward iteration produces, in the order produced. -/
def labelsBack (slice : List Nat) : List (List Nat) :=
  lbF slice.length slice

/-- `RelativeDname::last`: the first label `next_back` yields. -/
def lastLabel (n : List Nat) : Option (List Nat) :=
  (nextBack n).map Prod.fst

/-- `Compose::compose` for `RelativeDname`: append the raw octets to the
output buffer. -/
def compose (n : List Nat) (buf : List Nat) : List Nat :=
  buf ++ n

/-- `Compose::compose_len` for `RelativeDname`: the octet length. -/
def composeLen (n : List Nat) : Nat :=
  n.length

/-- ASCII case folding of one byte: A–Z to a–z, all else unchanged. -/
def foldByte (b : Nat) : Nat :=
  if 65 ≤ b ∧ b ≤ 90 then b + 32 else b

/-- The case-folded label sequence of a name. -/
def foldedLabels (n : List Nat) : List (List Nat) :=
  (labels n).map (List.map foldByte)

/-- Modelled from the spec: `name_eq` of `traits.rs`, which is not under
`src/`.  Spec §4.5: two names are equal iff they have the same label count
and corresponding labels are case-insensitively equal — i.e. iff their
case-folded label sequences coincide. -/
def nameEq (a b : List Nat) : Bool :=
  foldedLabels a == foldedLabels b

/-- Modelled from the spec: the `Hash` impl folds each label the same way as
equality (spec §4.5, "hashing folds the same way so equal names always hash
equal"); `relative.rs` hashes label by label, so the stream also carries each
label's length. -/
def hashStream (n : List Nat) : List (List Nat) :=
  (labels n).map (fun lab => lab.length :: lab.map foldByte)

/-- Modelled from the spec: `ends_with` of `traits.rs`, which is not under
`src/`.  Spec §4.5: true iff `base`'s labels are a case-insensitive suffix of
`self`'s labels. -/
def endsWith (n base : List Nat) : Bool :=
  foldedLabels base ==
    (foldedLabels n).drop ((foldedLabels n).length - (foldedLabels base).length)

/-- `RelativeDname::strip_suffix`: on `ends_with`, `split_off` at
`len - base.compose_len()` and keep the left part; otherwise report
`StripSuffixError` with self untouched.  Outer `none` is the (unreachable)
panic inside `split_off`. -/
def stripSuffix (n base : List Nat) :
    Option (Except StripSuffixError (List Nat)) :=
  if endsWith n base then
    match splitOff n (n.length - composeLen base) with
    | none => none
    | some (_, newSelf) => some (Except.ok newSelf)
  else some (Except.error StripSuffixError.mk)

/-- Modelled from the spec: label ordering of `label.rs`, which is not under
`src/`.  Spec §4.1: case-folded lexicographic — the first differing folded
byte decides, and a label that is a folded prefix of the other sorts first. -/
def labelCmp : List Nat → List Nat → Ordering
  | [], [] => Ordering.eq
  | [], _ :: _ => Ordering.lt
  | _ :: _, [] => Ordering.gt
  | a :: x, b :: y =>
    match compare (foldByte a) (foldByte b) with
    | Ordering.eq => labelCmp x y
    | ord => ord

/-- The label comparison rule as the C4 claim words it: label length first,
then case-folded bytes.  Kept for comparison against `labelCmp`. -/
def labelCmpLenFirst (a b : List Nat) : Ordering :=
  match compare a.length b.length with
  | Ordering.eq => labelCmp a b
  | ord => ord

/-- Lexicographic comparison of label sequences under a label comparator;
when one sequence is exhausted the shorter sorts first. -/
def seqCmpWith (f : List Nat → List Nat → Ordering) :
    List (List Nat) → List (List Nat) → Ordering
  | [], [] => Ordering.eq
  | [], _ :: _ => Ordering.lt
  | _ :: _, [] => Ordering.gt
  | a :: x, b :: y =>
    match f a b with
    | Ordering.eq => seqCmpWith f x y
    | ord => ord

/-- Modelled from the spec: `name_cmp` of `traits.rs` (used by `Ord` for
`RelativeDname`), which is not under `src/`.  Spec §4.5: reverse both label
lists (so comparison starts at the label closest to the root) and compare
lexicographically with the label rule of §4.1; the name with fewer labels
sorts first when all compared labels are equal. -/
def nameCmp (m n : List Nat) : Ordering :=
  seqCmpWith labelCmp (labels m).reverse (labels n).reverse

/-- The name comparison that the C4 claim's length-first label rule would
produce. -/
def nameCmpLenFirst (m n : List Nat) : Ordering :=
  seqCmpWith labelCmpLenFirst (labels m).reverse (labels n).reverse

/-- Wire encoding of a label sequence: each label as its length byte followed
by its payload, concatenated. -/
def encodeName : List (List Nat) → List Nat
  | [] => []
  | lab :: ls => (lab.length :: lab) ++ encodeName ls

/-- A label acceptable inside a relative name: nonempty (not root) and at
most 63 payload bytes. -/
def GoodLabel (lab : List Nat) : Prop :=
  1 ≤ lab.length ∧ lab.length ≤ 63

/-- All labels of a spine acceptable inside a relative name. -/
def GoodSpine (ls : List (List Nat)) : Prop :=
  ∀ lab ∈ ls, GoodLabel lab

instance : DecidablePred GoodLabel := fun lab =>
  inferInstanceAs (Decidable (1 ≤ lab.length ∧ lab.length ≤ 63))

instance : DecidablePred GoodSpine := fun ls =>
  inferInstanceAs (Decidable (∀ lab ∈ ls, GoodLabel lab))

/-- A label boundary of a name: offset 0, the end of the buffer, or the end
of the encoding of some initial run of labels (equivalently the first byte of
the next label's length byte). -/
def Boundary (n : List Nat) (i : Nat) : Prop :=
  ∃ k, k ≤ (labels n).length ∧ i = (encodeName ((labels n).take k)).length

/-! Concrete byte buffers used by the claims. -/

/-- The 16-octet encoding of `www.example.com` as a relative name. -/
def wecBytes : List Nat :=
  [3,119,119,119, 7,101,120,97,109,112,108,101, 3,99,111,109]

/-- The encoding of `example.com`. -/
def ecBytes : List Nat :=
  [7,101,120,97,109,112,108,101, 3,99,111,109]

/-- The encoding of `com`. -/
def cBytes : List Nat := [3,99,111,109]

/-- The encoding of `www`. -/
def wwwBytes : List Nat := [3,119,119,119]

/-- The encoding of `example.net`. -/
def enBytes : List Nat :=
  [7,101,120,97,109,112,108,101, 3,110,101,116]

/-- The encoding of `WWW.Example.COM`. -/
def wecUpperBytes : List Nat :=
  [3,87,87,87, 7,69,120,97,109,112,108,101, 3,67,79,77]

/-- The nine names of the RFC 4034 §6.1 canonical-order example, in the order
the RFC (and the `relative.rs` test) lists them. -/
def rfc4034Names : List (List Nat) :=
  [ [7,101,120,97,109,112,108,101],
    [1,97, 7,101,120,97,109,112,108,101],
    [8,121,108,106,107,106,108,106,107, 1,97, 7,101,120,97,109,112,108,101],
    [1,90, 1,97, 7,101,120,97,109,112,108,101],
    [4,122,65,66,67, 1,97, 7,101,120,97,109,112,108,101],
    [1,122, 7,101,120,97,109,112,108,101],
    [1,1, 1,122, 7,101,120,97,109,112,108,101],
    [1,42, 1,122, 7,101,120,97,109,112,108,101],
    [1,200, 1,122, 7,101,120,97,109,112,108,101] ]

/-- The name `yljkjljk.a.example`. -/
def yljkBytes : List Nat :=
  [8,121,108,106,107,106,108,106,107, 1,97, 7,101,120,97,109,112,108,101]

/-- The name `Z.a.example`. -/
def zaBytes : List Nat :=
  [1,90, 1,97, 7,101,120,97,109,112,108,101]

/-- Twenty-five labels `123456789`, 250 octets in all. -/
def name250 : List Nat :=
  (List.replicate 25 ([9,49,50,51,52,53,54,55,56,57] : List Nat)).flatten

/-- A valid relative name of encoded length exactly 254. -/
def name254 : List Nat := name250 ++ [3,49,50,51]

/-- A well-formed label sequence of encoded length 255, over the limit. -/
def name255 : List Nat := name250 ++ [4,49,50,51,52]

/-! Helper lemmas about the label splitter and the wire encoding. -/

theorem splitFrom_encode (lab t : List Nat) (h : GoodLabel lab) :
    splitFrom ((lab.length :: lab) ++ t) = Except.ok (lab, t) := by
  have h63 : lab.length ≤ 63 := h.2
  have hlen : ¬ (lab ++ t).length < lab.length := by
    simp only [List.length_append]; omega
  simp only [List.cons_append, splitFrom, if_pos h63, if_neg hlen,
    List.take_left, List.drop_left]

theorem splitFrom_ok_inv {l lab t : List Nat}
    (h : splitFrom l = Except.ok (lab, t)) :
    ∃ head tail, l = head :: tail ∧ head ≤ 63 ∧ head ≤ tail.length ∧
      lab = tail.take head ∧ t = tail.drop head := by
  match l with
  | [] => simp [splitFrom] at h
  | head :: tail =>
    refine ⟨head, tail, rfl, ?_⟩
    by_cases h63 : head ≤ 63
    · by_cases hshort : tail.length < head
      · simp [splitFrom, h63, hshort] at h
      · simp [splitFrom, h63, hshort] at h
        exact ⟨h63, by omega, h.1.symm, h.2.symm⟩
    · by_cases h127 : head ≤ 127 <;> by_cases h191 : head ≤ 191 <;>
        simp [splitFrom, h63, h127, h191] at h

theorem splitFrom_cons_ok_inv {head : Nat} {tail lab t : List Nat}
    (h : splitFrom (head :: tail) = Except.ok (lab, t)) :
    head ≤ 63 ∧ head ≤ tail.length ∧ lab = tail.take head ∧
      t = tail.drop head := by
  obtain ⟨hd, tl, heq, h63, hle, hlab, ht⟩ := splitFrom_ok_inv h
  injection heq with e1 e2
  subst e1
  subst e2
  exact ⟨h63, hle, hlab, ht⟩

theorem splitFrom_ok_length {l lab t : List Nat}
    (h : splitFrom l = Except.ok (lab, t)) : t.length < l.length := by
  obtain ⟨head, tail, rfl, _, _, _, rfl⟩ := splitFrom_ok_inv h
  simp only [List.length_drop, List.length_cons]
  omega

theorem encodeName_cons (lab : List Nat) (ls : List (List Nat)) :
    encodeName (lab :: ls) = lab.length :: (lab ++ encodeName ls) := by
  simp [encodeName]

theorem encodeName_append (a b : List (List Nat)) :
    encodeName (a ++ b) = encodeName a ++ encodeName b := by
  induction a with
  | nil => rfl
  | cons lab ls ih => simp [encodeName_cons, ih]

theorem encodeName_singleton (lab : List Nat) :
    encodeName [lab] = lab.length :: lab := by
  simp [encodeName]

theorem encodeName_snoc_ne_nil (ys : List (List Nat)) (lab : List Nat) :
    encodeName (ys ++ [lab]) ≠ [] := by
  cases ys <;> simp [encodeName_cons]

theorem spine_length_le (ls : List (List Nat)) :
    ls.length ≤ (encodeName ls).length := by
  induction ls with
  | nil => simp [encodeName]
  | cons lab ls ih => simp only [encodeName_cons, List.length_cons,
      List.length_append]; omega

theorem goodSpine_cons {lab : List Nat} {ls : List (List Nat)} :
    GoodSpine (lab :: ls) ↔ GoodLabel lab ∧ GoodSpine ls := by
  simp [GoodSpine]

theorem goodSpine_append {a b : List (List Nat)} :
    GoodSpine (a ++ b) ↔ GoodSpine a ∧ GoodSpine b := by
  simp [GoodSpine, or_imp, forall_and]

theorem goodLabel_ne_nil {lab : List Nat} (h : GoodLabel lab) :
    lab.isEmpty = false := by
  cases lab with
  | nil => exact absurd h.1 (by simp)
  | cons a l => rfl

/-! Scanner lemmas: `scanF` behaviour, fuel sufficiency, soundness and
completeness of `from_octets` with respect to the wire encoding. -/

theorem scanF_nil (f : Nat) : scanF f [] = Except.ok () := by
  cases f <;> rfl

theorem scanF_cons_err {head : Nat} {tail : List Nat} {e : SplitLabelError}
    {fuel : Nat} (h : splitFrom (head :: tail) = Except.error e) :
    scanF (fuel+1) (head :: tail) = Except.error (relErrOfSplit e) := by
  simp only [scanF, h]

theorem scanF_cons_ok {head : Nat} {tail lab t : List Nat} {fuel : Nat}
    (h : splitFrom (head :: tail) = Except.ok (lab, t)) :
    scanF (fuel+1) (head :: tail) =
      if lab.isEmpty then Except.error RelativeDnameError.AbsoluteName
      else scanF fuel t := by
  simp only [scanF, h]

theorem scanF_stable : ∀ (f₁ : Nat) (slice : List Nat) (f₂ : Nat),
    slice.length ≤ f₁ → slice.length ≤ f₂ → scanF f₁ slice = scanF f₂ slice := by
  intro f₁
  induction f₁ with
  | zero =>
    intro slice f₂ h1 _
    have : slice = [] := List.eq_nil_of_length_eq_zero (Nat.le_zero.mp h1)
    subst this
    rw [scanF_nil, scanF_nil]
  | succ f ih =>
    intro slice f₂ h1 h2
    match slice with
    | [] => rw [scanF_nil, scanF_nil]
    | head :: tail =>
      obtain ⟨g, rfl⟩ : ∃ g, f₂ = g + 1 :=
        ⟨f₂ - 1, by simp only [List.length_cons] at h2; omega⟩
      cases h : splitFrom (head :: tail) with
      | error e => rw [scanF_cons_err h, scanF_cons_err h]
      | ok p =>
        obtain ⟨label, t⟩ := p
        rw [scanF_cons_ok h, scanF_cons_ok h]
        by_cases hemp : label.isEmpty
        · simp [hemp]
        · simp only [hemp, Bool.false_eq_true, if_false]
          have hlt := splitFrom_ok_length h
          simp only [List.length_cons] at hlt h1 h2
          exact ih t g (by omega) (by omega)

theorem scanF_encode_append : ∀ (ls : List (List Nat)) (t : List Nat)
    (fuel : Nat), GoodSpine ls → (encodeName ls ++ t).length ≤ fuel →
    scanF fuel (encodeName ls ++ t) = scanF t.length t := by
  intro ls
  induction ls with
  | nil =>
    intro t fuel _ h
    simp only [encodeName, List.nil_append] at h ⊢
    exact scanF_stable fuel t t.length h le_rfl
  | cons lab ls ih =>
    intro t fuel hgood hlen
    rw [goodSpine_cons] at hgood
    rw [encodeName_cons, List.cons_append, List.append_assoc] at hlen ⊢
    obtain ⟨f, rfl⟩ : ∃ f, fuel = f + 1 :=
      ⟨fuel - 1, by simp only [List.length_cons] at hlen; omega⟩
    have hsf : splitFrom (lab.length :: (lab ++ (encodeName ls ++ t))) =
        Except.ok (lab, encodeName ls ++ t) := by
      simpa [List.cons_append] using
        splitFrom_encode lab (encodeName ls ++ t) hgood.1
    rw [scanF_cons_ok hsf, goodLabel_ne_nil hgood.1]
    simp only [Bool.false_eq_true, if_false]
    apply ih t f hgood.2
    simp only [List.length_cons, List.length_append] at hlen ⊢
    omega

theorem scanF_ok_spine : ∀ (fuel : Nat) (slice : List Nat),
    slice.length ≤ fuel → scanF fuel slice = Except.ok () →
    ∃ ls, GoodSpine ls ∧ slice = encodeName ls := by
  intro fuel
  induction fuel with
  | zero =>
    intro slice h1 _
    have : slice = [] := List.eq_nil_of_length_eq_zero (Nat.le_zero.mp h1)
    exact ⟨[], by simp [GoodSpine], by simp [this, encodeName]⟩
  | succ f ih =>
    intro slice h1 h2
    match slice with
    | [] => exact ⟨[], by simp [GoodSpine], rfl⟩
    | head :: tail =>
      cases hs : splitFrom (head :: tail) with
      | error e => rw [scanF_cons_err hs] at h2; exact absurd h2 (by simp)
      | ok p =>
        obtain ⟨label, t⟩ := p
        rw [scanF_cons_ok hs] at h2
        by_cases hemp : label.isEmpty
        · rw [hemp] at h2; simp at h2
        · simp only [hemp, Bool.false_eq_true, if_false] at h2
          obtain ⟨h63, hle, hlab, ht⟩ := splitFrom_cons_ok_inv hs
          have htlen : t.length ≤ f := by
            subst ht
            simp only [List.length_drop]
            simp only [List.length_cons] at h1
            omega
          obtain ⟨ls, hgood, hteq⟩ := ih t htlen h2
          have hlablen : label.length = head := by
            subst hlab
            simp only [List.length_take]
            omega
          have hlab1 : 1 ≤ label.length := by
            cases hl : label with
            | nil => rw [hl] at hemp; simp at hemp
            | cons a l => simp [hl]
          refine ⟨label :: ls, ?_, ?_⟩
          · rw [goodSpine_cons]
            exact ⟨⟨hlab1, by omega⟩, hgood⟩
          · rw [encodeName_cons, hlablen]
            have : label ++ encodeName ls = tail := by
              rw [← hteq, hlab, ht, List.take_append_drop]
            rw [this]

theorem fromOctets_ok_eq {b n : List Nat}
    (h : fromOctets b = Except.ok n) : n = b := by
  unfold fromOctets at h
  split at h
  · exact absurd h (by simp)
  · split at h
    · exact absurd h (by simp)
    · injection h with h; exact h.symm

theorem fromOctets_ok_spine {b : List Nat} (h : fromOctets b = Except.ok b) :
    b.length ≤ 254 ∧ ∃ ls, GoodSpine ls ∧ b = encodeName ls := by
  unfold fromOctets at h
  split at h
  · exact absurd h (by simp)
  · next hlen =>
    refine ⟨by omega, ?_⟩
    split at h
    · exact absurd h (by simp)
    · next hs => exact scanF_ok_spine b.length b le_rfl hs

theorem fromOctets_encode {ls : List (List Nat)} (good : GoodSpine ls)
    (hlen : (encodeName ls).length ≤ 254) :
    fromOctets (encodeName ls) = Except.ok (encodeName ls) := by
  unfold fromOctets
  rw [if_neg (by omega)]
  have hscan : scanF (encodeName ls).length (encodeName ls) = Except.ok () := by
    have := scanF_encode_append ls [] (encodeName ls).length good (by simp)
    simpa [scanF_nil] using this
  rw [hscan]

/-! Forward iteration over a valid name yields exactly the encoded spine. -/

theorem labelsF_nil (f : Nat) : labelsF f [] = [] := by
  cases f with
  | zero => rfl
  | succ f => simp [labelsF, splitFrom]

theorem labelsF_cons_ok {head : Nat} {tail lab t : List Nat} {fuel : Nat}
    (h : splitFrom (head :: tail) = Except.ok (lab, t)) :
    labelsF (fuel+1) (head :: tail) = lab :: labelsF fuel t := by
  simp only [labelsF, h]

theorem labelsF_encode : ∀ (ls : List (List Nat)) (fuel : Nat),
    GoodSpine ls → (encodeName ls).length ≤ fuel →
    labelsF fuel (encodeName ls) = ls := by
  intro ls
  induction ls with
  | nil =>
    intro fuel _ _
    simpa [encodeName] using labelsF_nil fuel
  | cons lab ls ih =>
    intro fuel hg hl
    rw [goodSpine_cons] at hg
    rw [encodeName_cons] at hl ⊢
    obtain ⟨f, rfl⟩ : ∃ f, fuel = f + 1 :=
      ⟨fuel - 1, by simp only [List.length_cons] at hl; omega⟩
    have hsf : splitFrom (lab.length :: (lab ++ encodeName ls)) =
        Except.ok (lab, encodeName ls) := by
      simpa [List.cons_append] using splitFrom_encode lab (encodeName ls) hg.1
    rw [labelsF_cons_ok hsf]
    have hf : (encodeName ls).length ≤ f := by
      simp only [List.length_cons, List.length_append] at hl
      omega
    rw [ih f hg.2 hf]

theorem labels_encode {ls : List (List Nat)} (good : GoodSpine ls) :
    labels (encodeName ls) = ls :=
  labelsF_encode ls _ good le_rfl

/-! The label-boundary characterisation of `is_label_start`. -/

theorem isLabelStartF_nil (f i : Nat) : isLabelStartF f [] i = false := by
  cases f <;> rfl

theorem isLabelStartF_cons_ok {head : Nat} {tail lab t : List Nat}
    {fuel i : Nat} (h : splitFrom (head :: tail) = Except.ok (lab, t)) :
    isLabelStartF (fuel+1) (head :: tail) i =
      if i < lab.length + 1 then false
      else if i = lab.length + 1 then true
      else isLabelStartF fuel t (i - (lab.length + 1)) := by
  simp only [isLabelStartF, h]

theorem isLabelStartF_char : ∀ (ls : List (List Nat)) (fuel i : Nat),
    GoodSpine ls → (encodeName ls).length ≤ fuel → 1 ≤ i →
    (isLabelStartF fuel (encodeName ls) i = true ↔
      ∃ k, 1 ≤ k ∧ k ≤ ls.length ∧ i = (encodeName (ls.take k)).length) := by
  intro ls
  induction ls with
  | nil =>
    intro fuel i _ _ _
    rw [show encodeName [] = [] from rfl, isLabelStartF_nil]
    simp only [Bool.false_eq_true, false_iff, not_exists]
    intro k hk
    simp only [List.length_nil] at hk
    omega
  | cons lab ls ih =>
    intro fuel i hg hlen hi
    rw [goodSpine_cons] at hg
    rw [encodeName_cons] at hlen ⊢
    obtain ⟨f, rfl⟩ : ∃ f, fuel = f + 1 :=
      ⟨fuel - 1, by simp only [List.length_cons] at hlen; omega⟩
    have hsf : splitFrom (lab.length :: (lab ++ encodeName ls)) =
        Except.ok (lab, encodeName ls) := by
      simpa [List.cons_append] using splitFrom_encode lab (encodeName ls) hg.1
    rw [isLabelStartF_cons_ok hsf]
    by_cases h1 : i < lab.length + 1
    · rw [if_pos h1]
      simp only [Bool.false_eq_true, false_iff, not_exists]
      rintro k ⟨hk1, hk2, hke⟩
      obtain ⟨k', rfl⟩ : ∃ k', k = k' + 1 := ⟨k - 1, by omega⟩
      rw [List.take_succ_cons, encodeName_cons] at hke
      simp only [List.length_cons, List.length_append] at hke
      omega
    · rw [if_neg h1]
      by_cases h2 : i = lab.length + 1
      · rw [if_pos h2]
        refine iff_of_true rfl ⟨1, le_rfl, by simp, ?_⟩
        rw [List.take_succ_cons, List.take_zero, encodeName_cons]
        simp [encodeName, h2]
      · rw [if_neg h2]
        rw [ih f (i - (lab.length + 1)) hg.2
          (by simp only [List.length_cons, List.length_append] at hlen; omega)
          (by omega)]
        constructor
        · rintro ⟨k, hk1, hk2, hke⟩
          refine ⟨k + 1, by omega, by simpa using Nat.succ_le_succ hk2, ?_⟩
          rw [List.take_succ_cons, encodeName_cons]
          simp only [List.length_cons, List.length_append]
          omega
        · rintro ⟨k, hk1, hk2, hke⟩
          obtain ⟨k', rfl⟩ : ∃ k', k = k' + 1 := ⟨k - 1, by omega⟩
          rw [List.take_succ_cons, encodeName_cons] at hke
          simp only [List.length_cons, List.length_append] at hke
          refine ⟨k', ?_, by simpa using hk2, by omega⟩
          rcases Nat.eq_zero_or_pos k' with h0 | h0
          · subst h0
            simp only [List.take_zero] at hke
            simp only [show encodeName [] = [] from rfl, List.length_nil] at hke
            omega
          · exact h0

theorem isLabelStart_char {ls : List (List Nat)} (good : GoodSpine ls)
    (i : Nat) :
    isLabelStart (encodeName ls) i = true ↔
      ∃ k, k ≤ ls.length ∧ i = (encodeName (ls.take k)).length := by
  unfold isLabelStart
  by_cases h0 : i = 0
  · subst h0
    rw [if_pos rfl]
    exact iff_of_true rfl ⟨0, by omega, by simp [encodeName]⟩
  · rw [if_neg h0]
    rw [isLabelStartF_char ls _ i good le_rfl (by omega)]
    constructor
    · rintro ⟨k, _, hk2, hk3⟩
      exact ⟨k, hk2, hk3⟩
    · rintro ⟨k, hk2, hk3⟩
      refine ⟨k, ?_, hk2, hk3⟩
      rcases Nat.eq_zero_or_pos k with rfl | hk
      · simp only [List.take_zero] at hk3
        simp only [show encodeName [] = [] from rfl, List.length_nil] at hk3
        omega
      · exact hk

theorem isLabelStart_iff_boundary {b : List Nat} {ls : List (List Nat)}
    (good : GoodSpine ls) (hb : b = encodeName ls) (i : Nat) :
    isLabelStart b i = true ↔ Boundary b i := by
  subst hb
  rw [isLabelStart_char good i]
  unfold Boundary
  rw [labels_encode good]

/-! Backward iteration: `next_back` removes exactly the last label. -/

theorem nbF_cons_ok {head : Nat} {tail lab t orig : List Nat} {fuel : Nat}
    (h : splitFrom (head :: tail) = Except.ok (lab, t)) :
    nbF (fuel+1) orig (head :: tail) =
      if t.isEmpty then some (lab, orig.take (orig.length - (lab.length + 1)))
      else nbF fuel orig t := by
  simp only [nbF, h]

theorem nbF_snoc : ∀ (ys : List (List Nat)) (lab orig : List Nat)
    (fuel : Nat), GoodSpine ys → GoodLabel lab →
    (encodeName (ys ++ [lab])).length ≤ fuel →
    nbF fuel orig (encodeName (ys ++ [lab])) =
      some (lab, orig.take (orig.length - (lab.length + 1))) := by
  intro ys
  induction ys with
  | nil =>
    intro lab orig fuel _ hlab hlen
    simp only [List.nil_append, encodeName_cons] at hlen ⊢
    obtain ⟨f, rfl⟩ : ∃ f, fuel = f + 1 :=
      ⟨fuel - 1, by simp only [List.length_cons] at hlen; omega⟩
    have hsf : splitFrom (lab.length :: (lab ++ encodeName [])) =
        Except.ok (lab, encodeName []) := by
      simpa [List.cons_append] using splitFrom_encode lab (encodeName []) hlab
    rw [nbF_cons_ok hsf]
    simp [encodeName]
  | cons y ys ih =>
    intro lab orig fuel hg hlab hlen
    rw [List.cons_append] at hlen ⊢
    rw [goodSpine_cons] at hg
    rw [encodeName_cons] at hlen ⊢
    obtain ⟨f, rfl⟩ : ∃ f, fuel = f + 1 :=
      ⟨fuel - 1, by simp only [List.length_cons] at hlen; omega⟩
    have hsf : splitFrom (y.length :: (y ++ encodeName (ys ++ [lab]))) =
        Except.ok (y, encodeName (ys ++ [lab])) := by
      simpa [List.cons_append] using
        splitFrom_encode y (encodeName (ys ++ [lab])) hg.1
    rw [nbF_cons_ok hsf]
    have hne : (encodeName (ys ++ [lab])).isEmpty = false := by
      cases he : encodeName (ys ++ [lab]) with
      | nil => exact absurd he (encodeName_snoc_ne_nil ys lab)
      | cons a l => rfl
    rw [hne]
    simp only [Bool.false_eq_true, if_false]
    refine ih lab orig f hg.2 hlab ?_
    simp only [List.length_cons, List.length_append] at hlen
    omega

theorem nextBack_snoc {ys : List (List Nat)} {lab : List Nat}
    (good : GoodSpine ys) (hlab : GoodLabel lab) :
    nextBack (encodeName (ys ++ [lab])) = some (lab, encodeName ys) := by
  unfold nextBack
  have hne : (encodeName (ys ++ [lab])).isEmpty = false := by
    cases he : encodeName (ys ++ [lab]) with
    | nil => exact absurd he (encodeName_snoc_ne_nil ys lab)
    | cons a l => rfl
  rw [hne]
  simp only [Bool.false_eq_true, if_false]
  rw [nbF_snoc ys lab _ _ good hlab le_rfl]
  congr 1
  rw [encodeName_append, encodeName_singleton]
  simp only [List.length_append, List.length_cons]
  rw [show (encodeName ys).length + (lab.length + 1) - (lab.length + 1) =
    (encodeName ys).length by omega]
  exact congrArg (Prod.mk lab) (List.take_left _ _)

theorem nextBack_nil : nextBack [] = none := rfl

theorem lbF_encode : ∀ (ls : List (List Nat)), ∀ (fuel : Nat),
    GoodSpine ls → ls.length ≤ fuel →
    lbF fuel (encodeName ls) = ls.reverse := by
  intro ls
  induction ls using List.reverseRecOn with
  | nil =>
    intro fuel _ _
    cases fuel with
    | zero => rfl
    | succ f => simp [lbF, encodeName, nextBack]
  | append_singleton ys lab ih =>
    intro fuel hg hlen
    rw [goodSpine_append] at hg
    have hlab : GoodLabel lab := hg.2 lab (by simp)
    obtain ⟨f, rfl⟩ : ∃ f, fuel = f + 1 :=
      ⟨fuel - 1, by simp only [List.length_append, List.length_cons] at hlen
                    omega⟩
    simp only [lbF, nextBack_snoc hg.1 hlab]
    rw [ih f hg.1 (by simp only [List.length_append, List.length_cons,
      List.length_nil] at hlen; omega)]
    simp

theorem labelsBack_encode {ls : List (List Nat)} (good : GoodSpine ls) :
    labelsBack (encodeName ls) = ls.reverse :=
  lbF_encode ls _ good (le_trans (spine_length_le ls) le_rfl)

/-! Case folding, equality, hashing and the suffix test. -/

theorem map_fold_eq_iff_forall₂ : ∀ (xs ys : List (List Nat)),
    xs.map (List.map foldByte) = ys.map (List.map foldByte) ↔
    List.Forall₂ (fun x y => x.map foldByte = y.map foldByte) xs ys := by
  intro xs
  induction xs with
  | nil =>
    intro ys
    cases ys <;> simp
  | cons x xs ih =>
    intro ys
    cases ys with
    | nil => simp
    | cons y ys => simp [List.forall₂_cons, ih]

theorem encodeName_length_congr : ∀ {xs ys : List (List Nat)},
    xs.map (List.map foldByte) = ys.map (List.map foldByte) →
    (encodeName xs).length = (encodeName ys).length := by
  intro xs
  induction xs with
  | nil =>
    intro ys h
    cases ys with
    | nil => rfl
    | cons y ys => simp at h
  | cons x xs ih =>
    intro ys h
    cases ys with
    | nil => simp at h
    | cons y ys =>
      simp only [List.map_cons, List.cons.injEq] at h
      have hx : x.length = y.length := by
        have := congrArg List.length h.1
        simpa using this
      rw [encodeName_cons, encodeName_cons]
      simp only [List.length_cons, List.length_append, hx, ih h.2]

theorem mapLenFold_congr : ∀ (xs ys : List (List Nat)),
    xs.map (List.map foldByte) = ys.map (List.map foldByte) →
    xs.map (fun lab => lab.length :: lab.map foldByte) =
      ys.map (fun lab => lab.length :: lab.map foldByte) := by
  intro xs
  induction xs with
  | nil =>
    intro ys h
    cases ys with
    | nil => rfl
    | cons y ys => simp at h
  | cons x xs ih =>
    intro ys h
    cases ys with
    | nil => simp at h
    | cons y ys =>
      simp only [List.map_cons, List.cons.injEq] at h ⊢
      refine ⟨⟨?_, h.1⟩, ih ys h.2⟩
      have := congrArg List.length h.1
      simpa using this

theorem endsWith_spine {ls ms : List (List Nat)} (good : GoodSpine ls)
    (goodm : GoodSpine ms)
    (h : endsWith (encodeName ls) (encodeName ms) = true) :
    ∃ d, d ≤ ls.length ∧
      (ls.drop d).map (List.map foldByte) = ms.map (List.map foldByte) ∧
      (encodeName ls).length - (encodeName ms).length =
        (encodeName (ls.take d)).length := by
  unfold endsWith foldedLabels at h
  rw [beq_iff_eq] at h
  rw [labels_encode good, labels_encode goodm] at h
  simp only [List.length_map] at h
  refine ⟨ls.length - ms.length, by omega, ?_, ?_⟩
  · rw [List.map_drop]
    exact h.symm
  · have hdecomp : encodeName ls =
        encodeName (ls.take (ls.length - ms.length)) ++
          encodeName (ls.drop (ls.length - ms.length)) := by
      conv_lhs => rw [← List.take_append_drop (ls.length - ms.length) ls]
      exact encodeName_append _ _
    have hlen2 : (encodeName (ls.drop (ls.length - ms.length))).length =
        (encodeName ms).length := by
      apply encodeName_length_congr
      rw [List.map_drop]
      exact h.symm
    rw [hdecomp, List.length_append, hlen2]
    omega

/-! Error classification of `from_octets` and step lemmas for the
higher-level operations. -/

theorem fromOctets_scan_err {b : List Nat} {e : RelativeDnameError}
    (hlen : b.length ≤ 254) (h : scanF b.length b = Except.error e) :
    fromOctets b = Except.error e := by
  unfold fromOctets
  rw [if_neg (by omega), h]

theorem scanF_encode_front {ls : List (List Nat)} {t b : List Nat}
    (good : GoodSpine ls) (hb : b = encodeName ls ++ t) :
    scanF b.length b = scanF t.length t := by
  subst hb
  exact scanF_encode_append ls t _ good le_rfl

theorem splitFirst_encode_cons {lab : List Nat} {ls : List (List Nat)}
    (hlab : GoodLabel lab) (hls : GoodSpine ls) :
    splitFirst (encodeName (lab :: ls)) =
      some (some (encodeName [lab]), encodeName ls) := by
  have hsf : splitFrom (encodeName (lab :: ls)) =
      Except.ok (lab, encodeName ls) := by
    rw [encodeName_cons]
    simpa [List.cons_append] using
      splitFrom_encode lab (encodeName ls) hlab
  have hne : (encodeName (lab :: ls)).isEmpty = false := by
    rw [encodeName_cons]; rfl
  have hstart : isLabelStart (encodeName (lab :: ls)) (lab.length + 1) =
      true := by
    rw [isLabelStart_char (goodSpine_cons.mpr ⟨hlab, hls⟩)]
    refine ⟨1, by simp, ?_⟩
    rw [List.take_succ_cons, List.take_zero, encodeName_singleton]
    simp
  unfold splitFirst
  rw [hne]
  simp only [Bool.false_eq_true, if_false]
  simp only [hsf]
  unfold splitTo
  rw [hstart]
  simp only [if_true]
  rw [encodeName_cons]
  rw [List.take_succ_cons, List.drop_succ_cons]
  rw [List.take_left, List.drop_left, encodeName_singleton]

theorem stripSuffix_of_endsWith {ls ms : List (List Nat)}
    (good : GoodSpine ls) (goodm : GoodSpine ms)
    (h : endsWith (encodeName ls) (encodeName ms) = true) :
    stripSuffix (encodeName ls) (encodeName ms) =
      some (Except.ok ((encodeName ls).take
        ((encodeName ls).length - (encodeName ms).length))) := by
  obtain ⟨d, hd, hmap, hlen⟩ := endsWith_spine good goodm h
  have hstart : isLabelStart (encodeName ls)
      ((encodeName ls).length - (encodeName ms).length) = true := by
    rw [isLabelStart_char good]
    exact ⟨d, hd, hlen⟩
  unfold stripSuffix
  rw [if_pos h]
  unfold splitOff composeLen
  rw [hstart]
  simp only [if_true]

/-! Claim theorems. -/

/-- C1: `RelativeDname::from_octets` fails `LongName` for every buffer longer
than 254 octets, before and regardless of any label scanning; within the
length limit it fails `AbsoluteName` when the scan hits a root label (length
byte 0) after a run of well-formed labels, maps a compressed-pointer length
byte (192..=255) to `CompressedName`, a reserved length byte (64..=191) to
`BadLabel`, and a truncated label to `ShortData`; and it succeeds — returning
exactly the input octets — precisely when the buffer is a concatenation of
normal, non-root labels.  A valid 254-octet name parses while a 255-octet
one fails. -/
theorem fromOctets_error_classification (b : List Nat) :
    (254 < b.length → fromOctets b = Except.error RelativeDnameError.LongName)
    ∧ (b.length ≤ 254 →
        (fromOctets b = Except.ok b ↔
          ∃ ls, GoodSpine ls ∧ b = encodeName ls))
    ∧ (∀ ls hd rest, GoodSpine ls → b = encodeName ls ++ hd :: rest →
        b.length ≤ 254 →
        (hd = 0 →
          fromOctets b = Except.error RelativeDnameError.AbsoluteName)
        ∧ (192 ≤ hd → hd ≤ 255 →
          fromOctets b = Except.error RelativeDnameError.CompressedName)
        ∧ (64 ≤ hd → hd ≤ 191 →
          ∃ t, fromOctets b = Except.error (RelativeDnameError.BadLabel t))
        ∧ (1 ≤ hd → hd ≤ 63 → rest.length < hd →
          fromOctets b = Except.error RelativeDnameError.ShortData))
    ∧ fromOctets name254 = Except.ok name254
    ∧ fromOctets name255 = Except.error RelativeDnameError.LongName := by
  refine ⟨?_, ?_, ?_, rfl, rfl⟩
  · intro h
    unfold fromOctets
    rw [if_pos h]
  · intro hlen
    constructor
    · intro h
      exact (fromOctets_ok_spine h).2
    · rintro ⟨ls, good, rfl⟩
      exact fromOctets_encode good hlen
  · intro ls hd rest good hb hlen
    have hscan : scanF b.length b = scanF (hd :: rest).length (hd :: rest) :=
      scanF_encode_front good hb
    refine ⟨?_, ?_, ?_, ?_⟩
    · intro h0
      subst h0
      have hsf : splitFrom (0 :: rest) = Except.ok ([], rest) := by
        simp [splitFrom]
      apply fromOctets_scan_err hlen
      rw [hscan, List.length_cons, scanF_cons_ok hsf]
      rfl
    · intro h192 _
      have hsf : splitFrom (hd :: rest) = Except.error SplitLabelError.Pointer := by
        simp only [splitFrom]
        rw [if_neg (by omega), if_neg (by omega), if_neg (by omega)]
      apply fromOctets_scan_err hlen
      rw [hscan, List.length_cons, scanF_cons_err hsf]
      rfl
    · intro h64 h191
      by_cases h127 : hd ≤ 127
      · refine ⟨LabelTypeError.Extended hd, ?_⟩
        have hsf : splitFrom (hd :: rest) =
            Except.error (SplitLabelError.BadType (LabelTypeError.Extended hd)) := by
          simp only [splitFrom]
          rw [if_neg (by omega), if_pos h127]
        apply fromOctets_scan_err hlen
        rw [hscan, List.length_cons, scanF_cons_err hsf]
        rfl
      · refine ⟨LabelTypeError.Undefined, ?_⟩
        have hsf : splitFrom (hd :: rest) =
            Except.error (SplitLabelError.BadType LabelTypeError.Undefined) := by
          simp only [splitFrom]
          rw [if_neg (by omega), if_neg (by omega), if_pos h191]
        apply fromOctets_scan_err hlen
        rw [hscan, List.length_cons, scanF_cons_err hsf]
        rfl
    · intro h1 h63 hshort
      have hsf : splitFrom (hd :: rest) = Except.error SplitLabelError.ShortBuf := by
        simp only [splitFrom]
        rw [if_pos h63, if_pos hshort]
      apply fromOctets_scan_err hlen
      rw [hscan, List.length_cons, scanF_cons_err hsf]
      rfl

/-- Closed witness for C1: the single root label is rejected as
`AbsoluteName`, through the classification theorem applied at the concrete
buffer `[0]` (the empty spine followed by the length byte 0). -/
theorem fromOctets_error_classification_witness :
    fromOctets [0] = Except.error RelativeDnameError.AbsoluteName :=
  (((fromOctets_error_classification [0]).2.2.1 [] 0 []
    (by intro lab hl; exact absurd hl (List.not_mem_nil lab)) rfl
    (by decide)).1) rfl

/-- C2: on every buffer accepted by `from_octets`, `compose` appends exactly
the input bytes to the output buffer and `compose_len` is the input's
length — parse-then-compose is the identity on valid inputs. -/
theorem compose_roundTrip (b n : List Nat) (h : fromOctets b = Except.ok n) :
    (∀ buf, compose n buf = buf ++ b) ∧ composeLen n = b.length := by
  obtain rfl : n = b := fromOctets_ok_eq h
  exact ⟨fun buf => rfl, rfl⟩

/-- Closed witness for C2 at the 16-octet `www.example.com` buffer. -/
theorem compose_roundTrip_witness :
    compose wecBytes [255] = [255] ++ wecBytes ∧
      composeLen wecBytes = wecBytes.length :=
  ⟨(compose_roundTrip wecBytes wecBytes rfl).1 [255],
    (compose_roundTrip wecBytes wecBytes rfl).2⟩

/-- C3: every slicing operation of `RelativeDname` (`range`, `range_from`,
`range_to`, `split_at`, `split_off`, `split_to`, `truncate`) succeeds exactly
when every offset it is given is a label boundary (offset 0, the buffer end,
or the end of an initial run of labels), and traps — modelled as `none`,
carrying no partially mutated state — on any non-boundary or out-of-range
offset; on the 16-octet `www.example.com` the calls `range 0 3`, `range 1 4`
and `range 0 11` all trap. -/
theorem slicing_boundary_guard (b : List Nat)
    (h : fromOctets b = Except.ok b) :
    (∀ s e, (range b s e).isSome = true ↔ (Boundary b s ∧ Boundary b e))
    ∧ (∀ s, (rangeFrom b s).isSome = true ↔ Boundary b s)
    ∧ (∀ e, (rangeTo b e).isSome = true ↔ Boundary b e)
    ∧ (∀ m, (splitAt b m).isSome = true ↔ Boundary b m)
    ∧ (∀ m, (splitOff b m).isSome = true ↔ Boundary b m)
    ∧ (∀ m, (splitTo b m).isSome = true ↔ Boundary b m)
    ∧ (∀ l, (truncate b l).isSome = true ↔ Boundary b l)
    ∧ range wecBytes 0 3 = none
    ∧ range wecBytes 1 4 = none
    ∧ range wecBytes 0 11 = none := by
  obtain ⟨_, ls, good, hb⟩ := fromOctets_ok_spine h
  have hiff := isLabelStart_iff_boundary good hb
  refine ⟨?_, ?_, ?_, ?_, ?_, ?_, ?_, rfl, rfl, rfl⟩
  · intro s e
    rw [← hiff s, ← hiff e]
    unfold range
    cases h1 : isLabelStart b s <;> cases h2 : isLabelStart b e <;> simp
  · intro s
    rw [← hiff s]
    unfold rangeFrom
    cases h1 : isLabelStart b s <;> simp
  · intro e
    rw [← hiff e]
    unfold rangeTo
    cases h1 : isLabelStart b e <;> simp
  · intro m
    rw [← hiff m]
    unfold splitAt
    cases h1 : isLabelStart b m <;> simp
  · intro m
    rw [← hiff m]
    unfold splitOff
    cases h1 : isLabelStart b m <;> simp
  · intro m
    rw [← hiff m]
    unfold splitTo
    cases h1 : isLabelStart b m <;> simp
  · intro l
    rw [← hiff l]
    unfold truncate
    cases h1 : isLabelStart b l <;> simp

/-- Closed witness for C3 at `www.example.com`: offset 4 is a boundary, so
`range 0 4` succeeds, while the non-boundary endpoint 3 makes `range 0 3`
trap. -/
theorem slicing_boundary_guard_witness :
    (range wecBytes 0 4).isSome = true ∧ range wecBytes 0 3 = none :=
  ⟨((slicing_boundary_guard wecBytes rfl).1 0 4).mpr
      ⟨⟨0, by decide, by decide⟩, ⟨1, by decide, by decide⟩⟩,
    (slicing_boundary_guard wecBytes rfl).2.2.2.2.2.2.2.1⟩

/-- C8: on a valid name, `is_label_start i` is true exactly when `i` is 0 or
the total encoded length of an initial segment of the labels (the buffer end
included); on the 16-octet `www.example.com` exactly the offsets 0, 4, 12
and 16 are label starts. -/
theorem isLabelStart_spec (b : List Nat) (h : fromOctets b = Except.ok b) :
    (∀ i, isLabelStart b i = true ↔ Boundary b i)
    ∧ (∀ i, isLabelStart wecBytes i = true ↔
        (i = 0 ∨ i = 4 ∨ i = 12 ∨ i = 16)) := by
  obtain ⟨_, ls, good, hb⟩ := fromOctets_ok_spine h
  refine ⟨isLabelStart_iff_boundary good hb, ?_⟩
  intro i
  have hgood : GoodSpine
      [[119,119,119],[101,120,97,109,112,108,101],[99,111,109]] := by decide
  rw [show wecBytes = encodeName
      [[119,119,119],[101,120,97,109,112,108,101],[99,111,109]] from rfl,
    isLabelStart_char hgood i]
  constructor
  · rintro ⟨k, hk, hke⟩
    simp only [List.length_cons, List.length_nil] at hk
    interval_cases k
    · left
      simpa [encodeName] using hke
    · right; left
      simpa [encodeName] using hke
    · right; right; left
      simpa [encodeName] using hke
    · right; right; right
      simpa [encodeName] using hke
  · rintro (rfl | rfl | rfl | rfl)
    · exact ⟨0, by decide, rfl⟩
    · exact ⟨1, by decide, rfl⟩
    · exact ⟨2, by decide, rfl⟩
    · exact ⟨3, by decide, rfl⟩

/-- Closed witness for C8: offset 4 of `www.example.com` is a label start,
obtained from the specification theorem at the concrete buffer. -/
theorem isLabelStart_spec_witness : isLabelStart wecBytes 4 = true :=
  ((isLabelStart_spec wecBytes rfl).2 4).mpr (Or.inr (Or.inl rfl))

/-- C9: `ndots` is 0 on the empty name by an explicit guard, and label count
minus one on every nonempty valid name, whose label count is at least 1 — so
the subtraction can never underflow. -/
theorem ndots_spec (b : List Nat) (h : fromOctets b = Except.ok b) :
    ndots ([] : List Nat) = 0
    ∧ (b = [] → ndots b = 0)
    ∧ (b ≠ [] → 1 ≤ labelCount b ∧ ndots b = labelCount b - 1 ∧
        ndots b + 1 = labelCount b) := by
  obtain ⟨_, ls, good, hb⟩ := fromOctets_ok_spine h
  refine ⟨rfl, ?_, ?_⟩
  · rintro rfl
    rfl
  · intro hne
    have hcount : labelCount b = ls.length := by
      unfold labelCount
      rw [hb, labels_encode good]
    have h1 : 1 ≤ labelCount b := by
      rw [hcount]
      cases hls : ls with
      | nil =>
        rw [hls] at hb
        exact absurd hb hne
      | cons a l => simp
    have hbne : b.isEmpty = false := by
      cases b with
      | nil => exact absurd rfl hne
      | cons a l => rfl
    refine ⟨h1, ?_, ?_⟩
    · simp [ndots, hbne]
    · simp only [ndots, hbne, Bool.false_eq_true, if_false]
      omega

/-- Closed witness for C9 at `www.example.com`: three labels, two dots, no
underflow. -/
theorem ndots_spec_witness : ndots wecBytes + 1 = labelCount wecBytes :=
  ((ndots_spec wecBytes rfl).2.2 (by decide)).2.2

/-- C4 counterexample: the code's canonical ordering does not compare label
pairs by length first.  On `yljkjljk.a.example` versus `Z.a.example` — two
names from the claim's own RFC 4034 list — the deciding label pair is
`yljkjljk` (length 8) against `Z` (length 1); the code orders the names by
the first case-folded byte (`y` < `z`), giving less-than, while the claim's
length-first rule would give greater-than and so would not leave the claimed
sequence strictly increasing. -/
theorem nameCmp_not_lengthFirst :
    nameCmp yljkBytes zaBytes = Ordering.lt ∧
      nameCmpLenFirst yljkBytes zaBytes = Ordering.gt :=
  ⟨rfl, rfl⟩

/-- C4 (amended): the canonical ordering compares reversed label lists
lexicographically, each label pair by case-folded byte value (first
differing folded byte decides, a folded prefix sorting first), the name with
fewer labels first; consequently the nine-name RFC 4034 §6.1 sequence is
strictly increasing under it for every pair, and case-varied names compare
equal. -/
theorem nameCmp_rfc4034_order :
    List.Pairwise (fun a b => nameCmp a b = Ordering.lt) rfc4034Names
    ∧ nameCmp wecBytes wecUpperBytes = Ordering.eq := by
  exact ⟨by decide, by decide⟩

/-- C5: two relative names are equal exactly when they have the same label
count and corresponding labels agree after ASCII case folding, and equal
names produce identical hash streams; `WWW.Example.COM` equals and hashes
identically to `www.example.com`. -/
theorem nameEq_fold_hash (a b : List Nat) (ha : fromOctets a = Except.ok a)
    (hb : fromOctets b = Except.ok b) :
    (nameEq a b = true ↔ ((labels a).length = (labels b).length ∧
      List.Forall₂ (fun x y => x.map foldByte = y.map foldByte)
        (labels a) (labels b)))
    ∧ (nameEq a b = true → hashStream a = hashStream b)
    ∧ nameEq wecUpperBytes wecBytes = true
    ∧ hashStream wecUpperBytes = hashStream wecBytes := by
  refine ⟨?_, ?_, rfl, rfl⟩
  · unfold nameEq foldedLabels
    rw [beq_iff_eq, map_fold_eq_iff_forall₂]
    constructor
    · intro h
      exact ⟨List.Forall₂.length_eq h, h⟩
    · exact And.right
  · intro h
    unfold nameEq foldedLabels at h
    rw [beq_iff_eq] at h
    exact mapLenFold_congr _ _ h

/-- Closed witness for C5: the hash-consistency implication applied at the
case-varied pair. -/
theorem nameEq_fold_hash_witness :
    hashStream wecUpperBytes = hashStream wecBytes :=
  (nameEq_fold_hash wecUpperBytes wecBytes rfl rfl).2.1 (by decide)

/-- C6: `strip_suffix base` succeeds exactly when `ends_with base` holds, in
which case it drops exactly `base.compose_len()` octets from the end (and in
particular never trips `split_off`'s boundary check); otherwise it reports
the suffix-mismatch error, self unchanged.  Stripping `example.com` from
`www.example.com` leaves `www`; stripping `example.net` fails. -/
theorem stripSuffix_spec (n base : List Nat) (hn : fromOctets n = Except.ok n)
    (hb : fromOctets base = Except.ok base) :
    (endsWith n base = true →
      stripSuffix n base =
        some (Except.ok (n.take (n.length - composeLen base))))
    ∧ (endsWith n base = false →
      stripSuffix n base = some (Except.error StripSuffixError.mk))
    ∧ ((∃ m, stripSuffix n base = some (Except.ok m)) ↔
        endsWith n base = true)
    ∧ stripSuffix wecBytes ecBytes = some (Except.ok wwwBytes)
    ∧ stripSuffix wecBytes enBytes =
        some (Except.error StripSuffixError.mk) := by
  obtain ⟨_, ls, good, hls⟩ := fromOctets_ok_spine hn
  obtain ⟨_, ms, goodm, hms⟩ := fromOctets_ok_spine hb
  subst hls
  subst hms
  have hsucc : endsWith (encodeName ls) (encodeName ms) = true →
      stripSuffix (encodeName ls) (encodeName ms) =
        some (Except.ok ((encodeName ls).take
          ((encodeName ls).length - composeLen (encodeName ms)))) :=
    fun he => stripSuffix_of_endsWith good goodm he
  have hfail : endsWith (encodeName ls) (encodeName ms) = false →
      stripSuffix (encodeName ls) (encodeName ms) =
        some (Except.error StripSuffixError.mk) := by
    intro he
    unfold stripSuffix
    rw [if_neg (by simp [he])]
  refine ⟨hsucc, hfail, ⟨?_, ?_⟩, rfl, rfl⟩
  · rintro ⟨m, hm⟩
    cases he : endsWith (encodeName ls) (encodeName ms) with
    | true => rfl
    | false =>
      rw [hfail he] at hm
      exact absurd hm (by simp)
  · intro he
    exact ⟨_, hsucc he⟩

/-- Closed witness for C6: the concrete successful strip through the
specification theorem. -/
theorem stripSuffix_spec_witness :
    stripSuffix wecBytes ecBytes = some (Except.ok wwwBytes) :=
  (stripSuffix_spec wecBytes ecBytes rfl rfl).2.2.2.1

/-- C7: `split_first` on a nonempty valid name returns the first label as a
one-label name and leaves the remainder in self; on the empty name it
returns nothing and leaves self empty; `parent` is `split_first().is_some()`
with the label discarded.  Iterating on `www.example.com` peels `www`,
`example`, `com`, then stays at the empty name. -/
theorem splitFirst_parent_spec (b : List Nat)
    (h : fromOctets b = Except.ok b) :
    (b = [] → splitFirst b = some (none, b) ∧ parent b = some (false, b))
    ∧ (b ≠ [] → ∃ lab ls, labels b = lab :: ls ∧
        splitFirst b = some (some (encodeName [lab]), encodeName ls) ∧
        parent b = some (true, encodeName ls) ∧
        b = encodeName [lab] ++ encodeName ls)
    ∧ splitFirst wecBytes = some (some wwwBytes, ecBytes)
    ∧ splitFirst ecBytes = some (some [7,101,120,97,109,112,108,101], cBytes)
    ∧ splitFirst cBytes = some (some cBytes, [])
    ∧ splitFirst ([] : List Nat) = some (none, [])
    ∧ parent ([] : List Nat) = some (false, []) := by
  obtain ⟨_, ls, good, hb⟩ := fromOctets_ok_spine h
  refine ⟨?_, ?_, rfl, rfl, rfl, rfl, rfl⟩
  · rintro rfl
    exact ⟨rfl, rfl⟩
  · intro hne
    subst hb
    cases ls with
    | nil => simp [encodeName] at hne
    | cons lab ls' =>
      rw [goodSpine_cons] at good
      refine ⟨lab, ls', labels_encode (goodSpine_cons.mpr good), ?_, ?_, ?_⟩
      · exact splitFirst_encode_cons good.1 good.2
      · unfold parent
        rw [splitFirst_encode_cons good.1 good.2]
        rfl
      · rw [← encodeName_append]
        rfl

/-- Closed witness for C7: the first peel of `www.example.com` through the
specification theorem. -/
theorem splitFirst_parent_spec_witness :
    splitFirst wecBytes = some (some wwwBytes, ecBytes) :=
  (splitFirst_parent_spec wecBytes rfl).2.2.1

/-- The last label of an encoded spine is the spine's last element. -/
theorem lastLabel_encode : ∀ (ls : List (List Nat)), GoodSpine ls →
    lastLabel (encodeName ls) = ls.getLast? := by
  intro ls
  induction ls using List.reverseRecOn with
  | nil => intro _; rfl
  | append_singleton ys lab ih =>
    intro good
    rw [goodSpine_append] at good
    unfold lastLabel
    rw [nextBack_snoc good.1 (good.2 lab (by simp))]
    simp

theorem encodeName_eq_nil_iff {ls : List (List Nat)} :
    encodeName ls = [] ↔ ls = [] := by
  cases ls with
  | nil => simp [encodeName]
  | cons lab ls => simp [encodeName_cons]

/-- C10: iterating a valid name's labels backward via `next_back` yields
exactly the forward labels in reverse order (and hence `label_count` many of
them); `last` returns the final label of forward iteration, and is nothing
exactly on the empty name. -/
theorem iter_back_reverse (b : List Nat) (h : fromOctets b = Except.ok b) :
    labelsBack b = (labels b).reverse
    ∧ (labelsBack b).length = labelCount b
    ∧ lastLabel b = (labels b).getLast?
    ∧ (lastLabel b = none ↔ b = []) := by
  obtain ⟨_, ls, good, hb⟩ := fromOctets_ok_spine h
  subst hb
  rw [labels_encode good, labelsBack_encode good, lastLabel_encode ls good]
  refine ⟨rfl, by simp [labelCount, labels_encode good], rfl, ?_⟩
  rw [encodeName_eq_nil_iff]
  exact List.getLast?_eq_none_iff

/-- Closed witness for C10 at `www.example.com`. -/
theorem iter_back_reverse_witness :
    labelsBack wecBytes = (labels wecBytes).reverse :=
  (iter_back_reverse wecBytes rfl).1

end DomainCore
